import Mathlib

/-!
# Verification of the delft3dfmpy 1D mesh generator and 1D–2D link generator

Shallow embedding of `delft3dfmpy/core/dfm.py` (classes `Network` and
`Links1d2d`).  Coordinates and chainages are embedded as rationals `ℚ`
(the Python source computes with floats; all concrete inputs used below
are exactly representable, so the arithmetic agrees).  Functions that can
raise a Python exception are embedded as `Option`-valued functions, with
`none` standing for the raised exception.
-/

namespace Dfm

/-! ## Spacer: `Network._generate_1d_spacing`

The source computes, per consecutive anchor pair,
`nnodes = max(2, int(round(section_length / one_d_mesh_distance) + 1))`
and fills the section with
`np.linspace(a, b, nnodes - 1, endpoint=False)`, appending the final
anchor at the end.  `round` is Python's built-in round (half to even).
-/

/-- Python's built-in `round` on an exactly-representable value:
round half to even. -/
def pyRound (x : ℚ) : ℤ :=
  let f := ⌊x⌋
  let r := x - f
  if r < 1/2 then f
  else if 1/2 < r then f + 1
  else if f % 2 = 0 then f else f + 1

/-- `np.linspace start stop num endpoint=False`:
`num` samples `start + i * ((stop - start) / num)`, `i = 0, …, num-1`. -/
def linspaceQ (start stop : ℚ) (num : ℕ) : List ℚ :=
  (List.range num).map (fun (i : ℕ) => start + (i : ℚ) * ((stop - start) / (num : ℚ)))

/-- `max(2, int(round(section_length / one_d_mesh_distance) + 1))`. -/
def nnodesFor (section_length one_d_mesh_distance : ℚ) : ℕ :=
  max 2 (pyRound (section_length / one_d_mesh_distance) + 1).toNat

/-- The `for i in range(len(anchor_pts) - 1)` loop body of
`_generate_1d_spacing`: raises (`none`) when a section length is `≤ 0`. -/
def spacingSections (one_d_mesh_distance : ℚ) : List ℚ → Option (List ℚ)
  | a :: b :: rest =>
    let section_length := b - a
    if section_length ≤ 0 then none
    else
      match spacingSections one_d_mesh_distance (b :: rest) with
      | none => none
      | some tail =>
        some (linspaceQ a b (nnodesFor section_length one_d_mesh_distance - 1) ++ tail)
  | _ => some []

/-- `Network._generate_1d_spacing(anchor_pts, one_d_mesh_distance)`.
`none` models the raised `ValueError` (non-positive section length), the
`ZeroDivisionError` for a zero mesh distance, and the `IndexError` of
`anchor_pts[-1]` on an empty anchor list. -/
def generate_1d_spacing (anchor_pts : List ℚ) (one_d_mesh_distance : ℚ) :
    Option (List ℚ) :=
  if one_d_mesh_distance = 0 then none
  else
    match anchor_pts.getLast? with
    | none => none
    | some last =>
      match spacingSections one_d_mesh_distance anchor_pts with
      | none => none
      | some offsets => some (offsets ++ [last])

/-! ## `Network.generate_offsets`

Per branch, the source first computes `offsets` for the anchors
`[0.0, branch.length]`.  When the branch has structures with nonzero
chainages (`if any(limits):` — Python truthiness on a list of floats),
it builds windows `zip([-0.1] + limits, limits + [length + 0.1])` and,
while some window holds no offset strictly inside it, appends the
midpoint of the first uncovered window to the anchors, re-sorts them and
re-runs `_generate_1d_spacing`.

The source `while` loop has no iteration guard; the embedding drives it
with explicit fuel, `none` standing for non-termination within the fuel
(or for a raised error of `_generate_1d_spacing`).
-/

/-- One coverage test: `((offsets > lower) & (offsets < upper)).any()`
for each window of `zip(lower_limits, upper_limits)`. -/
def inRangeWindows (lower upper : List ℚ) (offsets : List ℚ) : List Bool :=
  (lower.zip upper).map (fun lu => offsets.any (fun o => decide (lu.1 < o) && decide (o < lu.2)))

/-- The `while not all(in_range):` loop of `generate_offsets`: recompute
the spacing for the current anchors, exit when every window holds an
offset strictly inside it, otherwise insert the midpoint of the first
uncovered window into the sorted anchor list and repeat. -/
def coverageLoop (one_d_mesh_distance : ℚ) (lower upper : List ℚ) :
    ℕ → List ℚ → Option (List ℚ)
  | 0, _ => none
  | fuel + 1, anchor_pts =>
    match generate_1d_spacing anchor_pts one_d_mesh_distance with
    | none => none
    | some offsets =>
      let in_range := inRangeWindows lower upper offsets
      if in_range.all id then some offsets
      else
        let i := in_range.findIdx (fun b => !b)
        let mid := (lower.getD i 0 + upper.getD i 0) / 2
        coverageLoop one_d_mesh_distance lower upper fuel
          (List.orderedInsert (· ≤ ·) mid anchor_pts)

/-- The per-branch body of `Network.generate_offsets` for a branch of
length `length` whose structures sit at the sorted distinct chainages
`limits` (`limits = sorted(group['chainage'].unique())`). -/
def generate_offsets_branch (length one_d_mesh_distance : ℚ) (limits : List ℚ)
    (fuel : ℕ) : Option (List ℚ) :=
  let anchor_pts : List ℚ := [0, length]
  match generate_1d_spacing anchor_pts one_d_mesh_distance with
  | none => none
  | some offsets =>
    -- `if any(limits):` — truthy iff some chainage is nonzero
    if limits.any (fun c => decide (c ≠ 0)) then
      coverageLoop one_d_mesh_distance (-1/10 :: limits) (limits ++ [length + 1/10])
        fuel anchor_pts
    else some offsets

/-- The structure-selection step of `Network.generate_offsets`:
`idx = (structures['branchid'] == '')` followed by
`ids_offsets = ids_offsets.loc[idx, :]`.  The rows that survive this
selection are exactly the rows whose `branchid` is the empty string;
only they are subsequently grouped by branch and applied as spacing
constraints. -/
def selectStructureConstraints (structures : List (String × ℚ)) : List (String × ℚ) :=
  structures.filter (fun s => s.1 = "")

/-! ## Network node registration: `Network.generate_1dnetwork`

For each branch (in length-sorted order) the loop appends the branch's
first and last coordinate to the running `nodes` list when not already
present (`if (first_point not in nodes): nodes.append(first_point)`),
then raises a `ValueError` when `nodes.index(first_point) ==
nodes.index(last_point)` (ring geometry).
-/

/-- Python's `list.index`: position of the first element equal to `a`
(0 when absent, a case unused by the source). -/
def listIndex {α : Type} [DecidableEq α] (a : α) : List α → ℕ
  | [] => 0
  | b :: rest => if b = a then 0 else listIndex a rest + 1

/-- One iteration of the branch loop of `generate_1dnetwork`, restricted
to the network-node administration.  `none` models the raised
`ValueError` for ring geometries. -/
def registerBranchNodes (nodes : List (ℚ × ℚ)) (branch : (ℚ × ℚ) × (ℚ × ℚ)) :
    Option (List (ℚ × ℚ)) :=
  let first_point := branch.1
  let last_point := branch.2
  let nodes1 := if first_point ∈ nodes then nodes else nodes ++ [first_point]
  let nodes2 := if last_point ∈ nodes1 then nodes1 else nodes1 ++ [last_point]
  let i_from := listIndex first_point nodes2 + 1
  let i_to := listIndex last_point nodes2 + 1
  if i_from = i_to then none else some nodes2

/-- The network-node list built by `generate_1dnetwork` from the
(first point, last point) pairs of the sorted branches. -/
def generate_1dnetwork_nodes (branches : List ((ℚ × ℚ) × (ℚ × ℚ))) :
    Option (List (ℚ × ℚ)) :=
  branches.foldlM registerBranchNodes []

/-- The concatenated endpoint list of a branch set (each branch
contributes its first and last coordinate). -/
def branchEndpoints (branches : List ((ℚ × ℚ) × (ℚ × ℚ))) : List (ℚ × ℚ) :=
  branches.flatMap (fun b => [b.1, b.2])

/-! ## `Links1d2d`

The link table is a pair of parallel, equal-length lists `nodes1d` /
`faces2d` of 1-based ids; the embedding stores them zipped as one list
of pairs.  Nearest-neighbour queries (`scipy.spatial.KDTree.query`) are
embedded as an argmin of squared Euclidean distances over the point
list; `distance < max_distance` on the Euclidean distance is embedded on
squared distances as `0 < max_distance ∧ distSq < max_distance ^ 2`.
-/

/-- Squared Euclidean distance. -/
def sqDist (p q : ℚ × ℚ) : ℚ :=
  (p.1 - q.1) ^ 2 + (p.2 - q.2) ^ 2

/-- `KDTree(pts).query(q)`: index of (and squared distance to) the point
of `pts` nearest to `q`; `none` for an empty point set. -/
def nearestIdxDist (pts : List (ℚ × ℚ)) (q : ℚ × ℚ) : Option (ℕ × ℚ) :=
  pts.enum.foldl
    (fun best ip =>
      match best with
      | none => some (ip.1, sqDist ip.2 q)
      | some b => if sqDist ip.2 q < b.2 then some (ip.1, sqDist ip.2 q) else some b)
    none

/-- `distance < max_distance` where `distance = √distSq ≥ 0`:
equivalently `0 < max_distance ∧ distSq < max_distance²`. -/
def closeDist (distSq max_distance : ℚ) : Bool :=
  decide (0 < max_distance) && decide (distSq < max_distance ^ 2)

/-- The link-adding core of `Links1d2d.generate_1d_to_2d`: each 1d node
(1-based index `i+1`) is paired with its nearest 2d face centre
(`idx_nearest + 1`) when `distance < max_distance`. -/
def linkPairs (faces2d : List (ℚ × ℚ)) (max_distance : ℚ) :
    List (ℚ × ℚ) → ℕ → List (ℕ × ℕ)
  | [], _ => []
  | p :: rest, i =>
    match nearestIdxDist faces2d p with
    | none => linkPairs faces2d max_distance rest (i + 1)
    | some jd =>
      if closeDist jd.2 max_distance then
        (i + 1, jd.1 + 1) :: linkPairs faces2d max_distance rest (i + 1)
      else linkPairs faces2d max_distance rest (i + 1)

/-- All node ids joined by an edge to `node_id`, including `node_id`
itself: `np.unique(edge_nodes[(edge_nodes == node_id).any(axis=1)])`. -/
def incidentNodes (edge_nodes : List (ℕ × ℕ)) (node_id : ℕ) : List ℕ :=
  ((edge_nodes.filter (fun e => e.1 == node_id || e.2 == node_id)).flatMap
    (fun e => [e.1, e.2])).dedup

/-- `while item in self.nodes1d: pop the matching link` — removes every
link whose 1d-node id equals `item`, preserving the order of the rest. -/
def removeKey (item : ℕ) : List (ℕ × ℕ) → List (ℕ × ℕ)
  | [] => []
  | p :: rest => if p.1 = item then removeKey item rest else p :: removeKey item rest

/-- `Links1d2d.check_boundary_link(bc)` acting on the link table.
`nodes1d_coords` are the 1d mesh node coordinates, `edge_nodes` the 1d
mesh edges (1-based ids), `bc` the boundary-condition centroid.  The
early `return None` for an empty link table leaves the table unchanged;
`none` models the `KeyError` of `counts[node_id]` when the nearest node
occurs in no edge (and the impossible empty-KDTree query). -/
def check_boundary_link (nodes1d_coords : List (ℚ × ℚ)) (edge_nodes : List (ℕ × ℕ))
    (bc : ℚ × ℚ) (links : List (ℕ × ℕ)) : Option (List (ℕ × ℕ)) :=
  if links = [] then some links
  else
    match nearestIdxDist nodes1d_coords bc with
    | none => none
    | some idx =>
      let node_id := idx.1 + 1
      let to_remove := incidentNodes edge_nodes node_id
      if to_remove = [] then none
      else some (to_remove.foldl (fun ls item => removeKey item ls) links)

/-- `Links1d2d.generate_1d_to_2d(max_distance)`: extend the link table
with the nearest-face pair of every 1d node within `max_distance`, then
run `check_boundary_link` for every boundary condition. -/
def generate_1d_to_2d (nodes1d_coords faces2d_coords : List (ℚ × ℚ))
    (max_distance : ℚ) (edge_nodes : List (ℕ × ℕ)) (bcs : List (ℚ × ℚ))
    (links : List (ℕ × ℕ)) : Option (List (ℕ × ℕ)) :=
  let new_links := links ++ linkPairs faces2d_coords max_distance nodes1d_coords 0
  bcs.foldlM (fun ls bc => check_boundary_link nodes1d_coords edge_nodes bc ls) new_links

/-- The crossing-removal step of `Links1d2d.generate_2d_to_1d` with
`intersecting=False`, as written in the source.  The loop body calls
`possibly_intersecting(cellbounds, link.geometry)` as a bare name that is
neither defined in `dfm.py` nor imported (the module elsewhere uses
`geometry.`-prefixed calls), so the first loop iteration raises
`NameError`; when the stored link table is empty,
`get_1d2dlinks(as_gdf=True)` returns `None` first and
`links.itertuples()` raises `AttributeError`.  Either way the step
raises (`none`) before removing anything, and the unfiltered links
already appended to `nodes1d`/`faces2d` persist in the object state. -/
def dropCrossingLinks (links : List (ℕ × ℕ)) : Option (List (ℕ × ℕ)) :=
  match links with
  | [] => none
  | _ :: _ => none

/-- `Links1d2d.get_1d2dlinks(as_gdf)`: `if not any(self.nodes1d): return
None` (Python truthiness: no nonzero id), otherwise the link table as
coordinate pairs (as a numpy array or as a GeoDataFrame of segments —
the embedding returns the common coordinate data for both values of
`as_gdf`). -/
def get_1d2dlinks (nodes1d_coords faces2d_coords : List (ℚ × ℚ))
    (nodes1d faces2d : List ℕ) (as_gdf : Bool) :
    Option (List ((ℚ × ℚ) × (ℚ × ℚ))) :=
  if nodes1d.all (fun n => n = 0) then none
  else
    let links := (nodes1d.zip faces2d).map
      (fun p => (nodes1d_coords.getD (p.1 - 1) (0, 0), faces2d_coords.getD (p.2 - 1) (0, 0)))
    if as_gdf then some links else some links

/-! ## Supporting lemmas -/

theorem linspaceQ_length (a b : ℚ) (n : ℕ) : (linspaceQ a b n).length = n := by
  simp only [linspaceQ, List.length_map, List.length_range]

theorem linspaceQ_getElem (a b : ℚ) (n i : ℕ) (hi : i < n) :
    (linspaceQ a b n).get ⟨i, by simpa [linspaceQ_length]⟩ = a + i * ((b - a) / n) := by
  simp only [List.get_eq_getElem, linspaceQ, List.getElem_map, List.getElem_range]

theorem mem_linspaceQ {a b x : ℚ} {n : ℕ} :
    x ∈ linspaceQ a b n ↔ ∃ i < n, x = a + i * ((b - a) / n) := by
  simp only [linspaceQ, List.mem_map, List.mem_range]
  constructor
  · rintro ⟨i, hi, rfl⟩; exact ⟨i, hi, rfl⟩
  · rintro ⟨i, hi, rfl⟩; exact ⟨i, hi, rfl⟩

theorem linspaceQ_head {n : ℕ} (a b : ℚ) (hn : 0 < n) :
    (linspaceQ a b n).head? = some a := by
  obtain ⟨m, rfl⟩ := Nat.exists_eq_succ_of_ne_zero hn.ne'
  simp [linspaceQ, List.range_succ_eq_map]

theorem linspaceQ_mem_bounds {a b x : ℚ} {n : ℕ} (hab : a < b) (hx : x ∈ linspaceQ a b n) :
    a ≤ x ∧ x < b := by
  obtain ⟨i, hi, rfl⟩ := mem_linspaceQ.mp hx
  have hn : 0 < n := Nat.zero_lt_of_lt hi
  have hnq : (0 : ℚ) < n := by exact_mod_cast hn
  have hs : 0 < (b - a) / (n : ℚ) := div_pos (by linarith) hnq
  constructor
  · nlinarith [mul_nonneg (Nat.cast_nonneg (α := ℚ) i) hs.le]
  · have hin : (i : ℚ) < n := by exact_mod_cast hi
    have hlt : (i : ℚ) * ((b - a) / n) < n * ((b - a) / n) :=
      mul_lt_mul_of_pos_right hin hs
    have hne : (n : ℚ) ≠ 0 := ne_of_gt hnq
    calc a + i * ((b - a) / n) < a + n * ((b - a) / n) := by linarith
      _ = b := by field_simp

theorem linspaceQ_chain' {a b : ℚ} {n : ℕ} (hab : a < b) :
    (linspaceQ a b n).Chain' (· < ·) := by
  rcases Nat.eq_zero_or_pos n with rfl | hn
  · simp [linspaceQ]
  have hnq : (0 : ℚ) < n := by exact_mod_cast hn
  have hs : 0 < (b - a) / (n : ℚ) := div_pos (by linarith) hnq
  rw [List.chain'_iff_pairwise]
  simp only [linspaceQ]
  refine List.Pairwise.map _ (fun i j hij => ?_) (List.pairwise_lt_range n)
  have hij' : (i : ℚ) < j := by exact_mod_cast hij
  have := mul_lt_mul_of_pos_right hij' hs
  linarith

theorem self_mem_linspaceQ {n : ℕ} (a b : ℚ) (hn : 0 < n) :
    a ∈ linspaceQ a b n :=
  mem_linspaceQ.mpr ⟨0, hn, by simp⟩

theorem linspaceQ_ne_nil {n : ℕ} (a b : ℚ) (hn : 0 < n) :
    linspaceQ a b n ≠ [] := by
  intro h
  have := linspaceQ_length a b n
  rw [h] at this
  simp at this
  omega



theorem le_getLast_of_chain' {l : List ℚ} {a : ℚ} (h : (a :: l).Chain' (· < ·)) :
    a ≤ (a :: l).getLast (List.cons_ne_nil a l) := by
  induction l generalizing a with
  | nil => simp
  | cons b rest ih =>
    have hab : a < b := (List.chain'_cons.mp h).1
    have htail := (List.chain'_cons.mp h).2
    calc a ≤ b := le_of_lt hab
      _ ≤ (b :: rest).getLast (List.cons_ne_nil b rest) := ih htail
      _ = ((a :: b :: rest).getLast (List.cons_ne_nil a (b :: rest))) := by
          rw [List.getLast_cons (List.cons_ne_nil b rest)]

theorem nnodesFor_ge_two (L d : ℚ) : 2 ≤ nnodesFor L d := le_max_left _ _

theorem spacingSections_spec (d : ℚ) (rest : List ℚ) :
    ∀ (a : ℚ), (a :: rest).Chain' (· < ·) →
    ∃ s, spacingSections d (a :: rest) = some s ∧
      s.Chain' (· < ·) ∧
      (∀ x ∈ s, a ≤ x ∧ x < (a :: rest).getLast (List.cons_ne_nil a rest)) ∧
      (rest = [] → s = []) ∧
      (rest ≠ [] → s.head? = some a) ∧
      (∀ x ∈ (a :: rest).dropLast, x ∈ s) := by
  induction rest with
  | nil =>
    intro a _
    exact ⟨[], rfl, by simp, by simp, fun _ => rfl, by simp, by simp⟩
  | cons b rest' ih =>
    intro a hchain
    have hab : a < b := (List.chain'_cons.mp hchain).1
    have htail : (b :: rest').Chain' (· < ·) := (List.chain'_cons.mp hchain).2
    obtain ⟨s', hs', hchain', hbounds', hnil', hhead', hmem'⟩ := ih b htail
    have hL : ¬ (b - a ≤ 0) := by linarith
    set n := nnodesFor (b - a) d with hn
    have hn1 : 0 < n - 1 := by
      have := nnodesFor_ge_two (b - a) d
      omega
    set pts := linspaceQ a b (n - 1) with hpts
    have hptsbounds : ∀ x ∈ pts, a ≤ x ∧ x < b := fun x hx => linspaceQ_mem_bounds hab hx
    refine ⟨pts ++ s', ?_, ?_, ?_, ?_, ?_, ?_⟩
    · simp only [spacingSections, hL, if_false, hs']
    · rw [List.chain'_append]
      refine ⟨linspaceQ_chain' hab, hchain', ?_⟩
      intro x hx y hy
      have hxpts : x ∈ pts := List.mem_of_mem_getLast? hx
      have hxb : x < b := (hptsbounds x hxpts).2
      cases rest' with
      | nil =>
        rw [hnil' rfl] at hy
        simp at hy
      | cons c rest'' =>
        have hh : s'.head? = some b := hhead' (by simp)
        rw [hh] at hy
        simp only [Option.mem_some_iff] at hy
        rw [← hy]
        exact hxb
    · intro x hx
      have hlast : (a :: b :: rest').getLast (List.cons_ne_nil a (b :: rest')) =
          (b :: rest').getLast (List.cons_ne_nil b rest') :=
        List.getLast_cons (List.cons_ne_nil b rest')
      rw [hlast]
      rcases List.mem_append.mp hx with hxp | hxs
      · have hxb := hptsbounds x hxp
        have hble : b ≤ (b :: rest').getLast (List.cons_ne_nil b rest') :=
          le_getLast_of_chain' htail
        exact ⟨hxb.1, lt_of_lt_of_le hxb.2 hble⟩
      · have := hbounds' x hxs
        exact ⟨by linarith [this.1], this.2⟩
    · intro h
      exact absurd h (List.cons_ne_nil b rest')
    · intro _
      have hne : pts ≠ [] := linspaceQ_ne_nil a b hn1
      rw [List.head?_append_of_ne_nil _ hne]
      exact linspaceQ_head a b hn1
    · intro x hx
      have hdrop : (a :: b :: rest').dropLast = a :: (b :: rest').dropLast := by
        simp [List.dropLast_cons₂]
      rw [hdrop] at hx
      rcases List.mem_cons.mp hx with rfl | hx'
      · exact List.mem_append.mpr (Or.inl (self_mem_linspaceQ x b hn1))
      · exact List.mem_append.mpr (Or.inr (hmem' x hx'))



/-- Claim C7 (confirmed): for every strictly increasing anchor sequence of
length at least 2 and positive target spacing, `_generate_1d_spacing`
succeeds and returns a strictly increasing sequence whose first element
is the first anchor and whose last element is the last anchor, and every
anchor (in particular 0 and the branch length for the anchors
`[0, length]` used by `generate_offsets`) appears in the output. -/
theorem generate_1d_spacing_spec (anchors : List ℚ) (d : ℚ)
    (h2 : 2 ≤ anchors.length) (hchain : anchors.Chain' (· < ·)) (hd : 0 < d) :
    ∃ l, generate_1d_spacing anchors d = some l ∧
      l.Chain' (· < ·) ∧
      l.head? = anchors.head? ∧
      l.getLast? = anchors.getLast? ∧
      ∀ a ∈ anchors, a ∈ l := by
  match anchors, h2 with
  | a :: b :: rest, _ =>
    obtain ⟨s, hs, hchain', hbounds, _, hhead, hmem⟩ :=
      spacingSections_spec d (b :: rest) a hchain
    have hne : (a :: b :: rest) ≠ [] := List.cons_ne_nil _ _
    set last := (a :: b :: rest).getLast hne with hlastdef
    have hlast? : (a :: b :: rest).getLast? = some last := List.getLast?_eq_getLast _ hne
    refine ⟨s ++ [last], ?_, ?_, ?_, ?_, ?_⟩
    · simp only [generate_1d_spacing, hlast?, hs, if_neg hd.ne']
    · rw [List.chain'_append]
      refine ⟨hchain', List.chain'_singleton _, ?_⟩
      intro x hx y hy
      simp only [List.head?_cons, Option.mem_some_iff] at hy
      have hxs : x ∈ s := List.mem_of_mem_getLast? hx
      have := (hbounds x hxs).2
      rw [← hy]
      exact this
    · have hh : s.head? = some a := hhead (List.cons_ne_nil b rest)
      have hsne : s ≠ [] := by
        intro h
        rw [h] at hh
        simp at hh
      rw [List.head?_append_of_ne_nil _ hsne, hh]
      simp
    · rw [List.getLast?_concat, hlast?]
    · intro x hx
      conv at hx => rw [← List.dropLast_append_getLast hne]
      rcases List.mem_append.mp hx with hx' | hx'
      · exact List.mem_append.mpr (Or.inl (hmem x hx'))
      · exact List.mem_append.mpr (Or.inr hx')



/-- Claim C3 (corrected): for a single anchor pair with gap `L = b - a`,
`_generate_1d_spacing` returns `max(2, round(L / target) + 1)` nodes
(`round` being Python's round-half-to-even), evenly spaced from the left
anchor to the right anchor.  The claim's example is wrong: for anchors
`[0, 100]` and spacing `40`, `round(2.5) = 2`, giving the 3 nodes
`[0, 50, 100]`, not 4 nodes — see the counterexample theorem. -/
theorem spacing_segment (a b d : ℚ) (hab : a < b) (hd : 0 < d) :
    ∃ l, generate_1d_spacing [a, b] d = some l ∧
      l.length = nnodesFor (b - a) d ∧
      ∀ (i : ℕ) (hi : i < l.length),
        l.get ⟨i, hi⟩ = a + (i : ℚ) * ((b - a) / ((nnodesFor (b - a) d - 1 : ℕ) : ℚ)) := by
  have hL : ¬ (b - a ≤ 0) := by linarith
  set n := nnodesFor (b - a) d with hn
  have hn2 : 2 ≤ n := nnodesFor_ge_two _ _
  have hn1 : 0 < n - 1 := by omega
  have hlen : (linspaceQ a b (n - 1)).length = n - 1 := linspaceQ_length a b (n - 1)
  have hcast : ((n - 1 : ℕ) : ℚ) ≠ 0 := by
    have : (0 : ℚ) < ((n - 1 : ℕ) : ℚ) := by exact_mod_cast hn1
    linarith
  refine ⟨linspaceQ a b (n - 1) ++ [b], ?_, ?_, ?_⟩
  · simp only [generate_1d_spacing, spacingSections, if_neg hd.ne', if_neg hL,
      List.getLast?_cons_cons, List.getLast?_singleton]
    simp [← hn]
  · simp [hlen]
    omega
  · intro i hi
    have hi' : i < n - 1 + 1 := by
      simpa [hlen] using hi
    have key : ∀ (hok : i < (linspaceQ a b (n - 1) ++ [b]).length),
        (linspaceQ a b (n - 1) ++ [b]).get ⟨i, hok⟩ =
          a + (i : ℚ) * ((b - a) / ((n - 1 : ℕ) : ℚ)) := by
      intro hok
      rw [List.get_eq_getElem]
      show (linspaceQ a b (n - 1) ++ [b])[i] = a + (i : ℚ) * ((b - a) / ((n - 1 : ℕ) : ℚ))
      rcases lt_or_ge i (n - 1) with hlt | hge
      · rw [List.getElem_append_left (by omega)]
        exact linspaceQ_getElem a b (n - 1) i hlt
      · have hieq : i = n - 1 := by omega
        rw [List.getElem_append_right (by omega)]
        simp only [hlen, hieq, Nat.sub_self, List.getElem_cons_zero]
        rw [eq_comm]
        have hne : ((n : ℚ) - 1) ≠ 0 := by
          have h1 : ((n - 1 : ℕ) : ℚ) = (n : ℚ) - 1 := by
            rw [Nat.cast_sub (by omega), Nat.cast_one]
          rw [← h1]
          exact hcast
        have hmul : ((n - 1 : ℕ) : ℚ) * ((b - a) / ((n - 1 : ℕ) : ℚ)) = b - a := by
          field_simp
        rw [hmul]
        ring
    exact key _



theorem coverageLoop_covers (d : ℚ) (lower upper : List ℚ) :
    ∀ (fuel : ℕ) (anchors offs : List ℚ),
      coverageLoop d lower upper fuel anchors = some offs →
      ∀ (i : ℕ) (hi : i < (lower.zip upper).length),
        ∃ o ∈ offs, ((lower.zip upper).get ⟨i, hi⟩).1 < o ∧
          o < ((lower.zip upper).get ⟨i, hi⟩).2 := by
  intro fuel
  induction fuel with
  | zero => intro anchors offs h; simp [coverageLoop] at h
  | succ fuel ih =>
    intro anchors offs h i hi
    rw [coverageLoop] at h
    cases hg : generate_1d_spacing anchors d with
    | none => rw [hg] at h; simp at h
    | some offsets =>
      rw [hg] at h
      simp only at h
      by_cases hall : (inRangeWindows lower upper offsets).all id
      · rw [if_pos hall] at h
        have hoffs : offs = offsets := by
          simpa using h.symm
        have hmem : (inRangeWindows lower upper offsets).get
            ⟨i, by simpa [inRangeWindows] using hi⟩ = true := by
          have := List.all_eq_true.mp hall
          exact this _ (List.get_mem _ _ _)
        simp only [inRangeWindows, List.get_eq_getElem, List.getElem_map] at hmem
        have := List.any_eq_true.mp hmem
        obtain ⟨o, ho, hcond⟩ := this
        simp only [Bool.and_eq_true, decide_eq_true_eq] at hcond
        rw [hoffs]
        refine ⟨o, ho, ?_, ?_⟩
        · rw [List.get_eq_getElem]
          exact hcond.1
        · rw [List.get_eq_getElem]
          exact hcond.2
      · rw [if_neg hall] at h
        exact ih _ offs h i hi

/-- Claim C1 (corrected): when the `generate_offsets` coverage loop for a
branch terminates, every structure chainage (with Python-truthy, i.e.
nonzero, value) has one offset strictly below it and one strictly above
it, inside the configured half-open windows bounded by the neighbouring
structure chainages (or `-0.1` / `length + 0.1` at the ends).  The
original claim additionally asserted that no offset ever equals the
chainage exactly; that part is false — see the counterexample. -/
theorem generate_offsets_branch_covers (L d : ℚ) (limits : List ℚ) (fuel : ℕ)
    (offs : List ℚ) (h : generate_offsets_branch L d limits fuel = some offs)
    (j : ℕ) (hj : j < limits.length) (hc : limits.get ⟨j, hj⟩ ≠ 0) :
    (∃ o ∈ offs, ((-1/10 : ℚ) :: limits).getD j 0 < o ∧ o < limits.get ⟨j, hj⟩) ∧
    (∃ o ∈ offs, limits.get ⟨j, hj⟩ < o ∧ o < (limits ++ [L + 1/10]).getD (j + 1) 0) := by
  have hany : limits.any (fun c => decide (c ≠ 0)) = true :=
    List.any_eq_true.mpr ⟨limits.get ⟨j, hj⟩, List.get_mem _ _ _, by simpa using hc⟩
  rw [generate_offsets_branch] at h
  cases hg : generate_1d_spacing [0, L] d with
  | none => rw [hg] at h; simp at h
  | some offsets0 =>
    rw [hg] at h
    simp only [hany, if_true] at h
    have hlenl : ((-1/10 : ℚ) :: limits).length = limits.length + 1 := by simp
    have hlenu : (limits ++ [L + 1/10]).length = limits.length + 1 := by simp
    have hlenz : (((-1/10 : ℚ) :: limits).zip (limits ++ [L + 1/10])).length =
        limits.length + 1 := by
      simp [List.length_zip]
    have hcov := coverageLoop_covers d ((-1/10 : ℚ) :: limits) (limits ++ [L + 1/10])
      fuel [0, L] offs h
    have hcov' : ∀ (i : ℕ) (hi : i < limits.length + 1),
        ∃ o ∈ offs, (((-1/10 : ℚ) :: limits).get ⟨i, by omega⟩) < o ∧
          o < ((limits ++ [L + 1/10]).get ⟨i, by omega⟩) := by
      intro i hi
      obtain ⟨o, ho, h1, h2⟩ := hcov i (by omega)
      rw [List.get_eq_getElem, List.getElem_zip] at h1 h2
      exact ⟨o, ho, h1, h2⟩
    constructor
    · obtain ⟨o, ho, h1, h2⟩ := hcov' j (by omega)
      refine ⟨o, ho, ?_, ?_⟩
      · rw [List.getD_eq_getElem _ _ (show j < ((-1/10 : ℚ) :: limits).length by omega)]
        exact h1
      · have heq : ((limits ++ [L + 1/10]).get ⟨j, by omega⟩) = limits.get ⟨j, hj⟩ := by
          simp only [List.get_eq_getElem]
          rw [List.getElem_append_left hj]
        rw [← heq]
        exact h2
    · obtain ⟨o, ho, h1, h2⟩ := hcov' (j + 1) (by omega)
      refine ⟨o, ho, ?_, ?_⟩
      · have heq : (((-1/10 : ℚ) :: limits).get ⟨j + 1, by omega⟩) = limits.get ⟨j, hj⟩ := by
          simp only [List.get_eq_getElem]
          rw [List.getElem_cons_succ]
        rw [← heq]
        exact h1
      · rw [List.getD_eq_getElem _ _ (show j + 1 < (limits ++ [L + 1/10]).length by omega)]
        exact h2



theorem removeKey_sublist (k : ℕ) (ls : List (ℕ × ℕ)) : (removeKey k ls).Sublist ls := by
  induction ls with
  | nil => simp [removeKey]
  | cons p rest ih =>
    rw [removeKey]
    by_cases h : p.1 = k
    · rw [if_pos h]
      exact ih.trans (List.sublist_cons_self p rest)
    · rw [if_neg h]
      exact ih.cons₂ p

theorem mem_removeKey {k : ℕ} {p : ℕ × ℕ} {ls : List (ℕ × ℕ)} :
    p ∈ removeKey k ls ↔ p ∈ ls ∧ p.1 ≠ k := by
  induction ls with
  | nil => simp [removeKey]
  | cons q rest ih =>
    rw [removeKey]
    by_cases h : q.1 = k
    · rw [if_pos h, ih]
      constructor
      · rintro ⟨hp, hk⟩
        exact ⟨List.mem_cons_of_mem q hp, hk⟩
      · rintro ⟨hp, hk⟩
        rcases List.mem_cons.mp hp with rfl | hp'
        · exact absurd h hk
        · exact ⟨hp', hk⟩
    · rw [if_neg h]
      constructor
      · intro hp
        rcases List.mem_cons.mp hp with rfl | hp'
        · exact ⟨List.mem_cons_self _ _, h⟩
        · exact ⟨List.mem_cons_of_mem q (ih.mp hp').1, (ih.mp hp').2⟩
      · rintro ⟨hp, hk⟩
        rcases List.mem_cons.mp hp with rfl | hp'
        · exact List.mem_cons_self _ _
        · exact List.mem_cons_of_mem q (ih.mpr ⟨hp', hk⟩)

theorem removeKey_eq_self {k : ℕ} {ls : List (ℕ × ℕ)} (h : ∀ p ∈ ls, p.1 ≠ k) :
    removeKey k ls = ls := by
  induction ls with
  | nil => rfl
  | cons q rest ih =>
    rw [removeKey, if_neg (h q (List.mem_cons_self _ _)),
      ih (fun p hp => h p (List.mem_cons_of_mem q hp))]

theorem foldl_removeKey_sublist (keys : List ℕ) :
    ∀ ls : List (ℕ × ℕ), (keys.foldl (fun acc k => removeKey k acc) ls).Sublist ls := by
  induction keys with
  | nil => intro ls; simp
  | cons k keys ih =>
    intro ls
    rw [List.foldl_cons]
    exact (ih (removeKey k ls)).trans (removeKey_sublist k ls)

theorem mem_foldl_removeKey (keys : List ℕ) :
    ∀ (ls : List (ℕ × ℕ)) (p : ℕ × ℕ),
      p ∈ keys.foldl (fun acc k => removeKey k acc) ls ↔ p ∈ ls ∧ ∀ k ∈ keys, p.1 ≠ k := by
  induction keys with
  | nil => intro ls p; simp
  | cons k keys ih =>
    intro ls p
    rw [List.foldl_cons, ih, mem_removeKey]
    constructor
    · rintro ⟨⟨hp, hk⟩, hks⟩
      refine ⟨hp, ?_⟩
      intro k' hk'
      rcases List.mem_cons.mp hk' with rfl | hk''
      · exact hk
      · exact hks k' hk''
    · rintro ⟨hp, hks⟩
      exact ⟨⟨hp, hks k (List.mem_cons_self _ _)⟩,
        fun k' hk' => hks k' (List.mem_cons_of_mem k hk')⟩

theorem foldl_removeKey_eq_self {keys : List ℕ} {ls : List (ℕ × ℕ)}
    (h : ∀ p ∈ ls, ∀ k ∈ keys, p.1 ≠ k) :
    keys.foldl (fun acc k => removeKey k acc) ls = ls := by
  induction keys with
  | nil => rfl
  | cons k keys ih =>
    rw [List.foldl_cons,
      removeKey_eq_self (fun p hp => h p hp k (List.mem_cons_self _ _))]
    exact ih (fun p hp k' hk' => h p hp k' (List.mem_cons_of_mem k hk'))

/-- Claim C5 (confirmed): `check_boundary_link` only removes links (the
result is a sublist of the input), and applying it a second time with the
same boundary location and mesh to the already-filtered link set removes
nothing further. -/
theorem check_boundary_link_spec (coords : List (ℚ × ℚ)) (edges : List (ℕ × ℕ))
    (bc : ℚ × ℚ) (links l' : List (ℕ × ℕ))
    (h : check_boundary_link coords edges bc links = some l') :
    l'.Sublist links ∧ check_boundary_link coords edges bc l' = some l' := by
  rw [check_boundary_link] at h
  by_cases hnil : links = []
  · rw [if_pos hnil] at h
    have : l' = links := by simpa using h.symm
    subst this
    rw [hnil]
    exact ⟨List.Sublist.refl _, by rw [check_boundary_link]; simp⟩
  · rw [if_neg hnil] at h
    cases hnear : nearestIdxDist coords bc with
    | none => rw [hnear] at h; simp at h
    | some idx =>
      rw [hnear] at h
      simp only at h
      by_cases hinc : incidentNodes edges (idx.1 + 1) = []
      · rw [if_pos hinc] at h; simp at h
      · rw [if_neg hinc] at h
        have hl' : l' = (incidentNodes edges (idx.1 + 1)).foldl
            (fun ls item => removeKey item ls) links := by
          simpa using h.symm
        have hsub : l'.Sublist links := by
          rw [hl']; exact foldl_removeKey_sublist _ links
        refine ⟨hsub, ?_⟩
        rw [check_boundary_link]
        by_cases hl'nil : l' = []
        · rw [if_pos hl'nil, hl'nil]
        · rw [if_neg hl'nil, hnear]
          simp only
          rw [if_neg hinc]
          congr 1
          refine foldl_removeKey_eq_self ?_
          intro p hp k hk
          rw [hl'] at hp
          exact (mem_foldl_removeKey _ _ _ |>.mp hp).2 k hk



theorem mem_condAppend {l : List (ℚ × ℚ)} {a x : ℚ × ℚ} :
    x ∈ (if a ∈ l then l else l ++ [a]) ↔ x ∈ l ∨ x = a := by
  by_cases hm : a ∈ l
  · rw [if_pos hm]
    constructor
    · exact Or.inl
    · rintro (h | rfl)
      · exact h
      · exact hm
  · rw [if_neg hm]
    simp [List.mem_append]

theorem nodup_condAppend {l : List (ℚ × ℚ)} {a : ℚ × ℚ} (h : l.Nodup) :
    (if a ∈ l then l else l ++ [a]).Nodup := by
  by_cases hm : a ∈ l
  · rwa [if_pos hm]
  · rw [if_neg hm]
    refine List.Nodup.append h (List.nodup_singleton _) ?_
    intro x hx hx1
    rw [List.mem_singleton] at hx1
    subst hx1
    exact hm hx

theorem registerBranchNodes_spec {nodes out : List (ℚ × ℚ)} {b : (ℚ × ℚ) × (ℚ × ℚ)}
    (h : registerBranchNodes nodes b = some out) :
    (nodes.Nodup → out.Nodup) ∧
    (∀ x, x ∈ out ↔ x ∈ nodes ∨ x = b.1 ∨ x = b.2) ∧
    b.1 ≠ b.2 := by
  rw [registerBranchNodes] at h
  set nodes1 := (if b.1 ∈ nodes then nodes else nodes ++ [b.1]) with hn1
  set nodes2 := (if b.2 ∈ nodes1 then nodes1 else nodes1 ++ [b.2]) with hn2
  by_cases hguard : listIndex b.1 nodes2 = listIndex b.2 nodes2
  · rw [if_pos (by rw [hguard])] at h
    simp at h
  · rw [if_neg (by omega)] at h
    have hout : out = nodes2 := by simpa using h.symm
    have hne : b.1 ≠ b.2 := by
      intro hcontra
      exact hguard (by rw [hcontra])
    refine ⟨?_, ?_, hne⟩
    · intro hnodup
      rw [hout, hn2]
      exact nodup_condAppend (by rw [hn1]; exact nodup_condAppend hnodup)
    · intro x
      rw [hout, hn2, mem_condAppend, hn1, mem_condAppend]
      tauto


theorem foldlM_registerBranchNodes_spec :
    ∀ (bs : List ((ℚ × ℚ) × (ℚ × ℚ))) (acc out : List (ℚ × ℚ)),
      bs.foldlM registerBranchNodes acc = some out →
      (acc.Nodup → out.Nodup) ∧
      (∀ x, x ∈ out ↔ x ∈ acc ∨ x ∈ branchEndpoints bs) ∧
      (∀ b ∈ bs, b.1 ≠ b.2) := by
  intro bs
  induction bs with
  | nil =>
    intro acc out h
    have : out = acc := by simpa [List.foldlM] using h.symm
    subst this
    exact ⟨id, fun x => by simp [branchEndpoints], by simp⟩
  | cons b bs ih =>
    intro acc out h
    rw [List.foldlM_cons] at h
    cases hr : registerBranchNodes acc b with
    | none => rw [hr] at h; simp at h
    | some mid =>
      rw [hr] at h
      simp only [Option.bind_eq_bind, Option.some_bind] at h
      obtain ⟨hnodup_mid, hmem_mid, hne_b⟩ := registerBranchNodes_spec hr
      obtain ⟨hnodup, hmem, hne⟩ := ih mid out h
      refine ⟨fun hacc => hnodup (hnodup_mid hacc), ?_, ?_⟩
      · intro x
        rw [hmem x]
        simp only [branchEndpoints, List.flatMap_cons, List.mem_append, List.mem_cons,
          List.mem_singleton, List.not_mem_nil, or_false]
        rw [hmem_mid x]
        simp only [branchEndpoints] at *
        tauto
      · intro c hc
        rcases List.mem_cons.mp hc with rfl | hc'
        · exact hne_b
        · exact hne c hc'

theorem branchEndpoints_length (bs : List ((ℚ × ℚ) × (ℚ × ℚ))) :
    (branchEndpoints bs).length = 2 * bs.length := by
  induction bs with
  | nil => rfl
  | cons b bs ih =>
    have hcons : branchEndpoints (b :: bs) = b.1 :: b.2 :: branchEndpoints bs := by
      simp [branchEndpoints]
    rw [hcons, List.length_cons, List.length_cons, ih, List.length_cons]
    ring

theorem mem_branchEndpoints {bs : List ((ℚ × ℚ) × (ℚ × ℚ))} {x : ℚ × ℚ} :
    x ∈ branchEndpoints bs ↔ ∃ c ∈ bs, x = c.1 ∨ x = c.2 := by
  simp only [branchEndpoints, List.mem_flatMap, List.mem_cons, List.mem_singleton,
    List.not_mem_nil, or_false]

theorem branchEndpoints_nodup_iff {bs : List ((ℚ × ℚ) × (ℚ × ℚ))}
    (hperb : ∀ b ∈ bs, b.1 ≠ b.2) :
    (branchEndpoints bs).Nodup ↔
      bs.Pairwise (fun b c => b.1 ≠ c.1 ∧ b.1 ≠ c.2 ∧ b.2 ≠ c.1 ∧ b.2 ≠ c.2) := by
  induction bs with
  | nil => simp [branchEndpoints]
  | cons b bs ih =>
    have hb : b.1 ≠ b.2 := hperb b (List.mem_cons_self _ _)
    have hperb' : ∀ c ∈ bs, c.1 ≠ c.2 := fun c hc => hperb c (List.mem_cons_of_mem b hc)
    have hcons : branchEndpoints (b :: bs) = b.1 :: b.2 :: branchEndpoints bs := by
      simp [branchEndpoints]
    rw [hcons, List.pairwise_cons, List.nodup_cons, List.nodup_cons, ih hperb']
    constructor
    · rintro ⟨h1, h2, h3⟩
      refine ⟨?_, h3⟩
      intro c hc
      have h1' : b.1 ≠ b.2 ∧ b.1 ∉ branchEndpoints bs := by
        constructor
        · exact hb
        · intro hmem
          exact h1 (List.mem_cons_of_mem _ hmem)
      have hc1 : c.1 ∈ branchEndpoints bs := mem_branchEndpoints.mpr ⟨c, hc, Or.inl rfl⟩
      have hc2 : c.2 ∈ branchEndpoints bs := mem_branchEndpoints.mpr ⟨c, hc, Or.inr rfl⟩
      refine ⟨?_, ?_, ?_, ?_⟩
      · intro hcontra; exact h1'.2 (hcontra ▸ hc1)
      · intro hcontra; exact h1'.2 (hcontra ▸ hc2)
      · intro hcontra; exact h2 (hcontra ▸ hc1)
      · intro hcontra; exact h2 (hcontra ▸ hc2)
    · rintro ⟨hpair, h3⟩
      refine ⟨?_, ⟨?_, h3⟩⟩
      · intro hmem
        rcases List.mem_cons.mp hmem with heq | hmem'
        · exact hb heq
        · obtain ⟨c, hc, hor⟩ := mem_branchEndpoints.mp hmem'
          rcases hor with h | h
          · exact (hpair c hc).1 h
          · exact (hpair c hc).2.1 h
      · intro hmem
        obtain ⟨c, hc, hor⟩ := mem_branchEndpoints.mp hmem
        rcases hor with h | h
        · exact (hpair c hc).2.2.1 h
        · exact (hpair c hc).2.2.2 h

/-- Claim C6 (confirmed): when `generate_1dnetwork` succeeds, coincident
branch endpoints are registered once: the node list has no duplicates,
holds exactly the endpoint coordinates, has length at most `2 × branch
count`, with equality exactly when no two branches share an endpoint. -/
theorem generate_1dnetwork_nodes_spec (bs : List ((ℚ × ℚ) × (ℚ × ℚ))) (ns : List (ℚ × ℚ))
    (h : generate_1dnetwork_nodes bs = some ns) :
    ns.Nodup ∧
    (∀ x, x ∈ ns ↔ x ∈ branchEndpoints bs) ∧
    ns.length ≤ 2 * bs.length ∧
    (ns.length = 2 * bs.length ↔
      bs.Pairwise (fun b c => b.1 ≠ c.1 ∧ b.1 ≠ c.2 ∧ b.2 ≠ c.1 ∧ b.2 ≠ c.2)) := by
  obtain ⟨hnodup, hmem, hperb⟩ := foldlM_registerBranchNodes_spec bs [] ns h
  have hnd : ns.Nodup := hnodup List.nodup_nil
  have hmem' : ∀ x, x ∈ ns ↔ x ∈ branchEndpoints bs := by
    intro x
    rw [hmem x]
    simp
  have hfin : ns.toFinset = (branchEndpoints bs).toFinset := by
    ext x
    simp only [List.mem_toFinset]
    exact hmem' x
  have hlen : ns.length = (branchEndpoints bs).dedup.length := by
    rw [← List.toFinset_card_of_nodup hnd, hfin, List.card_toFinset]
  refine ⟨hnd, hmem', ?_, ?_⟩
  · rw [hlen, ← branchEndpoints_length bs]
    exact (List.dedup_sublist _).length_le
  · rw [hlen, ← branchEndpoints_length bs]
    constructor
    · intro heq
      have hddeq : (branchEndpoints bs).dedup = branchEndpoints bs :=
        (List.dedup_sublist _).eq_of_length heq
      have hndup : (branchEndpoints bs).Nodup := hddeq ▸ List.nodup_dedup _
      exact (branchEndpoints_nodup_iff hperb).mp hndup
    · intro hpair
      rw [List.Nodup.dedup ((branchEndpoints_nodup_iff hperb).mpr hpair)]

theorem closeDist_false_of_nonpos {d2 md : ℚ} (h : md ≤ 0) : closeDist d2 md = false := by
  rw [closeDist]
  have : ¬ (0 < md) := not_lt.mpr h
  simp [this]

theorem linkPairs_nil_of_nonpos (faces : List (ℚ × ℚ)) {md : ℚ} (h : md ≤ 0) :
    ∀ (nodes : List (ℚ × ℚ)) (i : ℕ), linkPairs faces md nodes i = [] := by
  intro nodes
  induction nodes with
  | nil => intro i; rfl
  | cons p rest ih =>
    intro i
    rw [linkPairs]
    cases nearestIdxDist faces p with
    | none => exact ih (i + 1)
    | some jd =>
      simp only
      rw [closeDist_false_of_nonpos h]
      simp only [Bool.false_eq_true, if_false]
      exact ih (i + 1)

/-- Claim C8 (corrected, amended part): `generate_1d_to_2d` called with
`max_distance ≤ 0` raises no error at all — it returns normally and adds
zero links, because `distance < max_distance` filters out every
candidate.  No `InvalidDistanceError` exists anywhere in the source. -/
theorem generate_1d_to_2d_nonpos_distance (nodes faces : List (ℚ × ℚ)) (md : ℚ)
    (edges : List (ℕ × ℕ)) (links : List (ℕ × ℕ)) (h : md ≤ 0) :
    generate_1d_to_2d nodes faces md edges [] links = some links := by
  rw [generate_1d_to_2d, linkPairs_nil_of_nonpos faces h nodes 0]
  simp [List.foldlM]

theorem mem_linkPairs_fst (faces : List (ℚ × ℚ)) (md : ℚ) :
    ∀ (nodes : List (ℚ × ℚ)) (i : ℕ) (p : ℕ × ℕ),
      p ∈ linkPairs faces md nodes i → i < p.1 := by
  intro nodes
  induction nodes with
  | nil => intro i p hp; simp [linkPairs] at hp
  | cons q rest ih =>
    intro i p hp
    rw [linkPairs] at hp
    cases hn : nearestIdxDist faces q with
    | none =>
      rw [hn] at hp
      have := ih (i + 1) p hp
      omega
    | some jd =>
      rw [hn] at hp
      simp only at hp
      by_cases hc : closeDist jd.2 md
      · rw [if_pos hc] at hp
        rcases List.mem_cons.mp hp with rfl | hp'
        · omega
        · have := ih (i + 1) p hp'
          omega
      · rw [if_neg hc] at hp
        have := ih (i + 1) p hp
        omega

theorem linkPairs_nodup (faces : List (ℚ × ℚ)) (md : ℚ) :
    ∀ (nodes : List (ℚ × ℚ)) (i : ℕ), (linkPairs faces md nodes i).Nodup := by
  intro nodes
  induction nodes with
  | nil => intro i; simp [linkPairs]
  | cons q rest ih =>
    intro i
    rw [linkPairs]
    cases hn : nearestIdxDist faces q with
    | none => exact ih (i + 1)
    | some jd =>
      simp only
      by_cases hc : closeDist jd.2 md
      · rw [if_pos hc]
        refine List.Nodup.cons ?_ (ih (i + 1))
        intro hmem
        have := mem_linkPairs_fst faces md rest (i + 1) _ hmem
        simp at this
      · rw [if_neg hc]
        exact ih (i + 1)

/-- Claim C9 (corrected, amended part): a single 1d-driven generation
pass starting from an empty link table adds each 1d node at most once, so
the resulting table has no duplicated (node, face) pair.  Across repeated
generation calls pairs can be duplicated — see the counterexample. -/
theorem generate_1d_to_2d_single_pass_nodup (nodes faces : List (ℚ × ℚ)) (md : ℚ)
    (edges : List (ℕ × ℕ)) :
    ∃ l, generate_1d_to_2d nodes faces md edges [] [] = some l ∧ l.Nodup := by
  refine ⟨linkPairs faces md nodes 0, ?_, linkPairs_nodup faces md nodes 0⟩
  rw [generate_1d_to_2d]
  simp [List.foldlM]

/-! ## Claim-level counterexamples, evaluations and witnesses -/

/-- Claim C1, counterexample: a branch of length 100 with target spacing
50 and a single structure at chainage 50 (strictly inside the branch)
leaves the coverage loop immediately — window `(-0.1, 50)` holds offset 0
and window `(50, 100.1)` holds offset 100 — so the final offset sequence
`[0, 50, 100]` contains a grid point exactly equal to the structure
chainage, contradicting the claim. -/
theorem offsets_can_hit_structure_chainage_exactly :
    generate_offsets_branch 100 50 [50] 5 = some [0, 50, 100] ∧
    (0 : ℚ) < 50 ∧ (50 : ℚ) < 100 ∧ (50 : ℚ) ∈ ([0, 50, 100] : List ℚ) := by
  refine ⟨?_, by norm_num, by norm_num, by simp⟩
  norm_num [generate_offsets_branch, generate_1d_spacing, spacingSections, nnodesFor,
    pyRound, linspaceQ, coverageLoop, inRangeWindows]
  norm_num [show Int.toNat 3 = 3 from rfl, List.range_succ]

/-- Claim C1, witness for the amended theorem, at the counterexample
input: both coverage windows around the structure at chainage 50 hold an
offset strictly inside them. -/
theorem generate_offsets_branch_covers_witness :
    (∃ o ∈ ([0, 50, 100] : List ℚ), (-1/10 : ℚ) < o ∧ o < 50) ∧
    (∃ o ∈ ([0, 50, 100] : List ℚ), (50 : ℚ) < o ∧ o < 100 + 1/10) := by
  have heval : generate_offsets_branch 100 50 [50] 5 = some [0, 50, 100] := by
    norm_num [generate_offsets_branch, generate_1d_spacing, spacingSections, nnodesFor,
      pyRound, linspaceQ, coverageLoop, inRangeWindows]
    norm_num [show Int.toNat 3 = 3 from rfl, List.range_succ]
  simpa using generate_offsets_branch_covers 100 50 [50] 5 [0, 50, 100] heval 0
    (by norm_num) (by norm_num)

/-- Claim C2: evaluation at the failing input.  The selection
`ids_offsets.loc[idx, :]` with `idx = (branchid == '')` keeps exactly the
rows with an empty `branchid`: a structure assigned to `branch1`
contributes no spacing constraint, while an unassigned structure is kept
(and would subsequently fail the branch lookup) — the opposite of the
claim. -/
theorem structure_selection_keeps_only_unassigned :
    selectStructureConstraints [("branch1", 25)] = [] ∧
    selectStructureConstraints [("branch1", 25), ("", 10)] = [("", 10)] := by
  constructor <;> rfl

/-- Claim C3, counterexample: for anchors `[0, 100]` and target spacing
40 the source returns 3 nodes `[0, 50, 100]` (Python's `round(2.5) = 2`,
half to even), not the 4 nodes `[0, 33.33, 66.67, 100]` stated by the
claim. -/
theorem spacing_example_returns_three_nodes :
    generate_1d_spacing [0, 100] 40 = some [0, 50, 100] ∧
    Option.map List.length (generate_1d_spacing [0, 100] 40) = some 3 ∧
    ([0, 50, 100] : List ℚ) ≠ [0, 100/3, 200/3, 100] ∧ (3 : ℕ) ≠ 4 := by
  have heval : generate_1d_spacing [0, 100] 40 = some [0, 50, 100] := by
    norm_num [generate_1d_spacing, spacingSections, nnodesFor, pyRound, linspaceQ]
    norm_num [show Int.toNat 3 = 3 from rfl, List.range_succ]
  refine ⟨heval, by rw [heval]; rfl, ?_, by norm_num⟩
  simp only [ne_eq, List.cons.injEq]
  norm_num

/-- Claim C3, witness for the amended theorem: the segment statement at
anchors `[0, 100]` with spacing 40. -/
theorem spacing_segment_witness :
    ∃ l, generate_1d_spacing [0, 100] 40 = some l ∧
      l.length = nnodesFor (100 - 0) 40 ∧
      ∀ (i : ℕ) (hi : i < l.length),
        l.get ⟨i, hi⟩ = 0 + (i : ℚ) * ((100 - 0) / ((nnodesFor (100 - 0) 40 - 1 : ℕ) : ℚ)) :=
  spacing_segment 0 100 40 (by norm_num) (by norm_num)

/-- Claim C4 (code_bug): the uniqueness refinement of the 2D-driven
nearest mode never executes.  Evaluated at the failing inputs: with a
non-empty link table the step raises `NameError` (unbound
`possibly_intersecting`), with an empty one it raises `AttributeError`
(`itertuples` on the `None` returned by `get_1d2dlinks`); in neither
case is any crossing link discarded, so links whose segment crosses more
than one Face2D polygon persist in the stored table, contrary to the
claim. -/
theorem crossing_removal_step_always_raises :
    dropCrossingLinks [(1, 1)] = none ∧ dropCrossingLinks [] = none :=
  ⟨rfl, rfl⟩

/-- Claim C5, witness: a three-node path mesh with the boundary condition
nearest to node 1 removes the links of nodes 1 and 2; re-applying the
resolver to the filtered set changes nothing. -/
theorem check_boundary_link_spec_witness :
    ([((3 : ℕ), (7 : ℕ))]).Sublist [(1, 5), (2, 6), (3, 7)] ∧
    check_boundary_link [(0, 0), (1, 0), (2, 0)] [(1, 2), (2, 3)] (0, 0) [(3, 7)] =
      some [(3, 7)] := by
  refine check_boundary_link_spec [(0, 0), (1, 0), (2, 0)] [(1, 2), (2, 3)] (0, 0)
    [(1, 5), (2, 6), (3, 7)] [(3, 7)] ?_
  norm_num [check_boundary_link, nearestIdxDist, sqDist, incidentNodes, removeKey,
    List.enum, List.dedup]
  simp

/-- Claim C6, witness: two branches sharing the endpoint `(10, 10)` give
exactly 3 network nodes, without duplicates and at most `2 × 2`. -/
theorem generate_1dnetwork_nodes_spec_witness :
    ∃ ns : List (ℚ × ℚ),
      generate_1dnetwork_nodes [((0, 0), (10, 10)), ((10, 10), (20, 0))] = some ns ∧
      ns.Nodup ∧ ns.length = 3 ∧ ns.length ≤ 2 * 2 := by
  have heval : generate_1dnetwork_nodes [((0, 0), (10, 10)), ((10, 10), (20, 0))] =
      some [(0, 0), (10, 10), (20, 0)] := by
    norm_num [generate_1dnetwork_nodes, registerBranchNodes, List.foldlM, listIndex,
      Prod.ext_iff]
  obtain ⟨hnd, _, hle, _⟩ := generate_1dnetwork_nodes_spec _ _ heval
  exact ⟨_, heval, hnd, by norm_num, hle⟩

/-- Claim C7, witness: anchors `[0, 100]` with spacing 40 give a strictly
increasing offset list starting at 0, ending at 100 and containing both
anchors. -/
theorem generate_1d_spacing_spec_witness :
    ∃ l, generate_1d_spacing [0, 100] 40 = some l ∧
      l.Chain' (· < ·) ∧
      l.head? = ([0, 100] : List ℚ).head? ∧
      l.getLast? = ([0, 100] : List ℚ).getLast? ∧
      ∀ a ∈ ([0, 100] : List ℚ), a ∈ l :=
  generate_1d_spacing_spec [0, 100] 40 (by norm_num)
    (by norm_num [List.chain'_cons, List.chain'_singleton]) (by norm_num)

/-- Claim C8, counterexample: `generate_1d_to_2d` with `max_distance = 0`
on a non-empty 1d and 2d mesh returns normally (`some`) with zero links,
instead of raising any error — no `InvalidDistanceError` is raised (none
exists in the source). -/
theorem generate_1d_to_2d_zero_distance_returns_normally :
    generate_1d_to_2d [(0, 0)] [(1, 0)] 0 [] [] [] = some [] ∧
    generate_1d_to_2d [(0, 0)] [(1, 0)] 0 [] [] [] ≠ none := by
  have heval : generate_1d_to_2d [(0, 0)] [(1, 0)] 0 [] [] [] = some [] := by
    norm_num [generate_1d_to_2d, linkPairs, nearestIdxDist, sqDist, closeDist, List.enum]
  exact ⟨heval, by rw [heval]; simp⟩

/-- Claim C8, witness for the amended theorem at `max_distance = 0`:
pre-existing links are returned untouched and nothing is added. -/
theorem generate_1d_to_2d_nonpos_distance_witness :
    generate_1d_to_2d [(0, 0)] [(1, 0)] 0 [] [] [(2, 2)] = some [(2, 2)] :=
  generate_1d_to_2d_nonpos_distance [(0, 0)] [(1, 0)] 0 [] [(2, 2)] le_rfl

/-- Claim C9, counterexample: running the 1d-driven generation twice on
the same one-node/one-face mesh stores the pair `(1, 1)` twice — the
stored link table does not maintain the pair-uniqueness invariant across
operation sequences. -/
theorem repeated_generation_duplicates_pairs :
    generate_1d_to_2d [(0, 0)] [(1, 0)] 10 [] [] [] = some [(1, 1)] ∧
    generate_1d_to_2d [(0, 0)] [(1, 0)] 10 [] [] [(1, 1)] = some [(1, 1), (1, 1)] ∧
    ¬ ([((1 : ℕ), (1 : ℕ)), (1, 1)] : List (ℕ × ℕ)).Nodup := by
  refine ⟨?_, ?_, by decide⟩ <;>
    norm_num [generate_1d_to_2d, linkPairs, nearestIdxDist, sqDist, closeDist, List.enum]

/-- Claim C10 (confirmed): with an empty stored link table,
`get_1d2dlinks` returns `None` for both values of `as_gdf`. -/
theorem get_1d2dlinks_empty_none (nodes1d_coords faces2d_coords : List (ℚ × ℚ))
    (as_gdf : Bool) :
    get_1d2dlinks nodes1d_coords faces2d_coords [] [] as_gdf = none := rfl

end Dfm
